import Mathlib

/-!
Shallow embedding of `src/tiny-renderer.ts` (class `TinyRenderer`): an
in-memory RGBA software rasterizer with a per-pixel depth buffer, a
Bresenham line rasterizer and a bounding-box triangle rasterizer.

JavaScript numbers are modelled as exact rationals (`ℚ`); the values stored
in the z-buffer additionally include `-Infinity` (its fill value).  The
`ImageData.data` byte store (a `Uint8ClampedArray`) is modelled per pixel:
the four bytes of pixel `i` live at byte offsets `4*i .. 4*i+3`, so a
4-byte write at flat pixel index `i` lands inside the byte array exactly
when `0 ≤ i < width*height`, and out-of-range byte stores are silently
dropped, as typed-array index stores are.  The z-buffer is a plain JS
`Array`: reading a missing entry yields `undefined` (any `<=` comparison
against it is false), and storing at a nonnegative index at or past the
current `length` grows `length` to `index + 1`.
-/

namespace TinyR

/-- JS `Math.trunc` on an exact rational: round toward zero. -/
def jsTrunc (q : ℚ) : ℤ := if 0 ≤ q then ⌊q⌋ else ⌈q⌉

/-- A stored RGBA pixel: the four bytes of `ImageData.data` for one pixel. -/
structure Px where
  r : ℕ
  g : ℕ
  b : ℕ
  a : ℕ
deriving DecidableEq, Repr

/-- A color value before storage: four JS numbers (RGBA). -/
structure Color where
  r : ℚ
  g : ℚ
  b : ℚ
  a : ℚ

/-- `Uint8ClampedArray` store conversion: clamp to `[0, 255]` and round to
the nearest integer, ties to even. -/
def jsClampByte (q : ℚ) : ℕ :=
  if q ≤ 0 then 0
  else if 255 ≤ q then 255
  else if q - ⌊q⌋ < 1/2 then ⌊q⌋.toNat
  else if 1/2 < q - ⌊q⌋ then ⌊q⌋.toNat + 1
  else if ⌊q⌋ % 2 = 0 then ⌊q⌋.toNat else ⌊q⌋.toNat + 1

/-- Store a `Color`'s four channels as bytes. -/
def clampColor (c : Color) : Px :=
  ⟨jsClampByte c.r, jsClampByte c.g, jsClampByte c.b, jsClampByte c.a⟩

/-- A JS number held in the z-buffer: `-Infinity` (the fill value) or a
finite value. -/
inductive JNum
  | ninf
  | fin (q : ℚ)
deriving DecidableEq, Repr

/-- The renderer state: the `ImageData` dimensions, its pixel bytes (grouped
per pixel, indexed by flat pixel index), and the z-buffer (a JS array:
current `length` plus the stored entries; `none` is `undefined`). -/
structure Renderer where
  width : ℕ
  height : ℕ
  px : ℤ → Px
  zlen : ℕ
  zbuf : ℤ → Option JNum

/-- Opaque black, the constructor's fill color. -/
def black : Px := ⟨0, 0, 0, 255⟩

/-- White texel used by the uniform-white-texture claims. -/
def whitePx : Px := ⟨255, 255, 255, 255⟩

/-- The freshly constructed state for positive dimensions: every pixel
opaque black, z-buffer of length `w*h` filled with `-Infinity`. -/
def initRenderer (w h : ℕ) : Renderer where
  width := w
  height := h
  px := fun _ => black
  zlen := w * h
  zbuf := fun i => if 0 ≤ i ∧ i < (w * h : ℤ) then some .ninf else none

/-- The `TinyRenderer` constructor, with the host semantics it relies on:
`createImageData(sw, sh)` throws an `IndexSizeError` when `sw` or `sh` is
zero and otherwise uses the absolute magnitudes of `sw` and `sh`
(HTML canvas standard), and `new Array(width * height)` throws a
`RangeError` when `width * height` is negative.  `none` models a thrown
construction-time error. -/
def mkRenderer (w h : ℤ) : Option Renderer :=
  if w = 0 ∨ h = 0 then none
  else if w * h < 0 then none
  else some (initRenderer w.natAbs h.natAbs)

/-- Flat pixel index of integer device coordinates `(x, y)`. -/
def pxIndex (s : Renderer) (x y : ℤ) : ℤ := y * (s.width : ℤ) + x

/-- The four byte stores of one pixel write: dropped in full when the flat
index is outside the byte array, performed in full otherwise. -/
def writePx (s : Renderer) (idx : ℤ) (c : Color) : Renderer :=
  if 0 ≤ idx ∧ idx < (s.width * s.height : ℤ) then
    { s with px := fun i => if i = idx then clampColor c else s.px i }
  else s

/-- `pixel(v, color)` from tiny-renderer.ts: truncate both coordinates
toward zero, then store the color's four bytes at the row-major offset. -/
def pixelOp (s : Renderer) (v : ℚ × ℚ) (c : Color) : Renderer :=
  writePx s (pxIndex s (jsTrunc v.1) (jsTrunc v.2)) c

/-- A JS array store `a[idx] = z` on the z-buffer: the entry is recorded
under `idx` (negative indices become plain properties, still readable), and
the array `length` grows to `idx + 1` when `idx` is at or past it. -/
def zbufSet (s : Renderer) (idx : ℤ) (z : ℚ) : Renderer :=
  { s with
    zbuf := fun i => if i = idx then some (.fin z) else s.zbuf i
    zlen := if (s.zlen : ℤ) ≤ idx then (idx + 1).toNat else s.zlen }

/-- The JS comparison `z <= e` for a z-buffer read `e`: comparisons against
`undefined` are false, and a finite `z` is never `<= -Infinity`. -/
def jsLe (z : ℚ) (e : Option JNum) : Bool :=
  match e with
  | some (.fin q) => decide (z ≤ q)
  | _ => false

/-- The state of `line`'s local variables after the two conditional swaps:
the steep flag and the (possibly transposed, possibly exchanged)
endpoints. -/
structure LineSetup where
  steep : Bool
  x0 : ℚ
  y0 : ℚ
  x1 : ℚ
  y1 : ℚ

/-- The two conditional swaps at the head of `line`: transpose when
`|y1 - y0| > |x1 - x0|`, then exchange the endpoints when `x0 > x1`. -/
def lineSetup (v0 v1 : ℚ × ℚ) : LineSetup :=
  let t : LineSetup :=
    if |v1.2 - v0.2| > |v1.1 - v0.1| then
      ⟨true, v0.2, v0.1, v1.2, v1.1⟩
    else
      ⟨false, v0.1, v0.2, v1.1, v1.2⟩
  if t.x0 > t.x1 then ⟨t.steep, t.x1, t.y1, t.x0, t.y0⟩ else t

/-- The body of `line`'s `for` loop, run `n` times: plot (de-transposing if
steep), then advance the error accumulator `carry` by `sy` and step `y` by
`sign dy` whenever `carry` exceeds `dx`. -/
def lineLoop (c : Color) (steep : Bool) (dx dy sy : ℚ) :
    ℕ → ℚ → ℚ → ℚ → Renderer → Renderer
  | 0, _, _, _, s => s
  | n + 1, x, y, carry, s =>
    let s1 := if steep then pixelOp s (y, x) c else pixelOp s (x, y) c
    let carry1 := carry + sy
    if dx < carry1 then
      lineLoop c steep dx dy sy n (x + 1) (y + if 0 < dy then 1 else -1)
        (carry1 - dx * 2) s1
    else
      lineLoop c steep dx dy sy n (x + 1) y carry1 s1

/-- Number of iterations of `for (let x = x0; x <= x1; x += 1)`. -/
def lineCount (x0 x1 : ℚ) : ℕ :=
  if x1 < x0 then 0 else (⌊x1 - x0⌋).toNat + 1

/-- `line(v0, v1, color)` from tiny-renderer.ts: Bresenham's algorithm with
the doubled integer error accumulator. -/
def lineOp (s : Renderer) (v0 v1 : ℚ × ℚ) (c : Color) : Renderer :=
  let t := lineSetup v0 v1
  let dx := t.x1 - t.x0
  let dy := t.y1 - t.y0
  let sy := |dy| * 2
  lineLoop c t.steep dx dy sy (lineCount t.x0 t.x1) t.x0 t.y0 0 s

/-- A 2D point (screen position or texture coordinate). -/
structure V2 where
  x : ℚ
  y : ℚ

/-- A screen-space vertex with depth. -/
structure V3 where
  x : ℚ
  y : ℚ
  z : ℚ

/-- 2D projection of a vertex (the triangle code reads only `[0]`/`[1]` of
a vertex when rasterizing in the plane). -/
def proj (v : V3) : V2 := ⟨v.x, v.y⟩

/-- Twice the signed area of triangle `a b c`: the 2D cross product of
`b - a` and `c - a`. -/
def det2 (a b c : V2) : ℚ :=
  (b.x - a.x) * (c.y - a.y) - (c.x - a.x) * (b.y - a.y)

/-- Modelled from the spec: `barycentric` lives in `src/triangle.ts`, which
is not under src/.  Per §4.1 it returns weights `(u, v, w)` with
`P = u·A + v·B + w·C` and `u + v + w = 1`, computed via the standard 2D
cross-product ratios against the full triangle area, and returns the
sentinel `(-1, 1, 1)` when the signed area is zero. -/
def barycentric (a b c p : V2) : ℚ × ℚ × ℚ :=
  let d := det2 a b c
  if d = 0 then (-1, 1, 1)
  else
    let u := ((b.x - p.x) * (c.y - p.y) - (c.x - p.x) * (b.y - p.y)) / d
    let v := ((c.x - p.x) * (a.y - p.y) - (a.x - p.x) * (c.y - p.y)) / d
    (u, v, 1 - u - v)

/-- A texture image: an `ImageData`-shaped read-only object, its texels
indexed by flat pixel index like the frame buffer. -/
structure Texture where
  width : ℕ
  height : ℕ
  data : ℤ → Px

/-- Modelled from the spec: `getPixel` lives in `src/image.ts`, which is
not under src/.  Per §4.4 it truncates the texel-unit coordinates to
integer texel indices and returns that texel unchanged (nearest neighbor,
no wrap/clamp). -/
def getPixel (t : Texture) (v : ℚ × ℚ) : Px :=
  t.data (jsTrunc v.2 * (t.width : ℤ) + jsTrunc v.1)

/-- Modelled from the spec: `scale` lives in `src/linear-algebra.ts`, which
is not under src/: componentwise scalar multiplication.  The call site
scales the sampled color's RGB channels by `intensity` and keeps the alpha
byte. -/
def scaleColor (p : Px) (i : ℚ) : Color :=
  ⟨(p.r : ℚ) * i, (p.g : ℚ) * i, (p.b : ℚ) * i, (p.a : ℚ)⟩

/-- The arguments of one `triangle` draw call. -/
structure TriArgs where
  v0 : V3
  v1 : V3
  v2 : V3
  t0 : V2
  t1 : V2
  t2 : V2
  intensity : ℚ
  tex : Texture

/-- Barycentric weights of lattice point `(x, y)` against the call's
projected vertices. -/
def triBC (A : TriArgs) (x y : ℤ) : ℚ × ℚ × ℚ :=
  barycentric (proj A.v0) (proj A.v1) (proj A.v2) ⟨(x : ℚ), (y : ℚ)⟩

/-- The interpolated depth `z = v0.z·bc0 + v1.z·bc1 + v2.z·bc2`. -/
def triZ (A : TriArgs) (bc : ℚ × ℚ × ℚ) : ℚ :=
  A.v0.z * bc.1 + A.v1.z * bc.2.1 + A.v2.z * bc.2.2

/-- One iteration of `triangle`'s scan: inside test, depth test, texture
sample, intensity scaling, then the z-buffer store followed by the pixel
write. -/
def triStep (A : TriArgs) (s : Renderer) (p : ℤ × ℤ) : Renderer :=
  let bc := triBC A p.1 p.2
  let z := triZ A bc
  let idx := p.2 * (s.width : ℤ) + p.1
  if bc.1 < 0 ∨ bc.2.1 < 0 ∨ bc.2.2 < 0 ∨ jsLe z (s.zbuf idx) then s
  else
    let u := A.t0.x * bc.1 + A.t1.x * bc.2.1 + A.t2.x * bc.2.2
    let v := A.t0.y * bc.1 + A.t1.y * bc.2.1 + A.t2.y * bc.2.2
    let col := scaleColor
      (getPixel A.tex (u * (A.tex.width : ℚ), (1 - v) * (A.tex.height : ℚ)))
      A.intensity
    let s1 := zbufSet s idx z
    pixelOp s1 ((p.1 : ℚ), (p.2 : ℚ)) col

/-- The integers from `lo` to `hi` inclusive, in order. -/
def intRange (lo hi : ℤ) : List ℤ :=
  List.map (fun (k : ℕ) => lo + (k : ℤ)) (List.range (hi + 1 - lo).toNat)

/-- JS `Math.min(a, b, c)`. -/
def min3 (a b c : ℚ) : ℚ := min a (min b c)

/-- JS `Math.max(a, b, c)`. -/
def max3 (a b c : ℚ) : ℚ := max a (max b c)

/-- Truncated x extent of the bounding box. -/
def triXmin (A : TriArgs) : ℤ := jsTrunc (min3 A.v0.x A.v1.x A.v2.x)

/-- Truncated upper x extent of the bounding box. -/
def triXmax (A : TriArgs) : ℤ := jsTrunc (max3 A.v0.x A.v1.x A.v2.x)

/-- Truncated y extent of the bounding box. -/
def triYmin (A : TriArgs) : ℤ := jsTrunc (min3 A.v0.y A.v1.y A.v2.y)

/-- Truncated upper y extent of the bounding box. -/
def triYmax (A : TriArgs) : ℤ := jsTrunc (max3 A.v0.y A.v1.y A.v2.y)

/-- The lattice points of the bounding-box scan, in loop order: `x` outer
ascending, `y` inner ascending. -/
def triPoints (A : TriArgs) : List (ℤ × ℤ) :=
  (intRange (triXmin A) (triXmax A)).flatMap
    (fun x => (intRange (triYmin A) (triYmax A)).map (fun y => (x, y)))

/-- `triangle(v0, v1, v2, t0, t1, t2, intensity, texture)` from
tiny-renderer.ts: fold the per-pixel step over the bounding-box scan. -/
def triangleOp (s : Renderer) (A : TriArgs) : Renderer :=
  (triPoints A).foldl (triStep A) s

/-- The skip condition of one scan iteration, exactly as the code tests
it. -/
def triSkip (A : TriArgs) (s : Renderer) (p : ℤ × ℤ) : Prop :=
  (triBC A p.1 p.2).1 < 0 ∨ (triBC A p.1 p.2).2.1 < 0 ∨ (triBC A p.1 p.2).2.2 < 0 ∨
    jsLe (triZ A (triBC A p.1 p.2)) (s.zbuf (p.2 * (s.width : ℤ) + p.1)) = true

instance (A : TriArgs) (s : Renderer) (p : ℤ × ℤ) : Decidable (triSkip A s p) := by
  unfold triSkip; infer_instance

/-- Ordering of z-buffer entries by blocking power: `e ≤ e'` when every
interpolated depth rejected by `e` (i.e. `z <= e` in JS) is also rejected
by `e'`.  Writes only move entries upward in this order. -/
def entryLE (e e' : Option JNum) : Prop :=
  ∀ z : ℚ, jsLe z e = true → jsLe z e' = true

/-- The analytic "strictly inside" predicate of the spec: the point is a
convex combination of the three vertices with all three weights positive. -/
def strictlyInside (a b c p : V2) : Prop :=
  ∃ u v w : ℚ, 0 < u ∧ 0 < v ∧ 0 < w ∧ u + v + w = 1 ∧
    p.x = u * a.x + v * b.x + w * c.x ∧ p.y = u * a.y + v * b.y + w * c.y

/-- The analytic closed triangle: a convex combination with nonnegative
weights.  "Strictly outside" is the negation of this predicate. -/
def inClosed (a b c p : V2) : Prop :=
  ∃ u v w : ℚ, 0 ≤ u ∧ 0 ≤ v ∧ 0 ≤ w ∧ u + v + w = 1 ∧
    p.x = u * a.x + v * b.x + w * c.x ∧ p.y = u * a.y + v * b.y + w * c.y

/-- A uniform texture: every texel (any index, so also every in-range one)
is the given pixel. -/
def uniformTex (w h : ℕ) (t : Px) : Texture := ⟨w, h, fun _ => t⟩

/-- A vertex lies fully inside a `W`×`H` buffer. -/
def inBuffer (W H : ℕ) (v : V3) : Prop :=
  0 ≤ v.x ∧ v.x < (W : ℚ) ∧ 0 ≤ v.y ∧ v.y < (H : ℚ)

/-- Repeated single-color pixel-buffer stores, used to describe the
concrete line draws. -/
def writeList (l : List ℤ) (c : Color) (s : Renderer) : Renderer :=
  l.foldl (fun t j => writePx t j c) s

/-- The eleven flat pixel indices plotted by `line((0,0), (3,10), c)` on a
buffer of width `W`: row `k` receives exactly one pixel, at column
`c7X k`. -/
def c7X (k : ℤ) : ℤ :=
  if k ≤ 1 then 0 else if k ≤ 5 then 1 else if k ≤ 8 then 2 else 3

/-- The flat indices of those eleven pixels on a buffer of width `W`, in
plot order. -/
def c7Pixels (W : ℤ) : List ℤ :=
  [0, W, 2 * W + 1, 3 * W + 1, 4 * W + 1, 5 * W + 1, 6 * W + 2, 7 * W + 2,
    8 * W + 2, 9 * W + 3, 10 * W + 3]

/-- A concrete color used by the line-drawing witnesses. -/
def cEx : Color := ⟨1, 2, 3, 4⟩

/-- A 1×1 uniform white texture, used by the concrete draw calls below. -/
def tex1 : Texture := uniformTex 1 1 whitePx

/-- Concrete draw call on a 2×1 buffer whose bounding box sticks out on the
left: vertices `(-1,1)`, `(0,1)`, `(0,0)`, all at depth 1. -/
def exTriC2 : TriArgs :=
  ⟨⟨-1, 1, 1⟩, ⟨0, 1, 1⟩, ⟨0, 0, 1⟩, ⟨0, 0⟩, ⟨0, 0⟩, ⟨0, 0⟩, 1, tex1⟩

/-- Concrete draw call on a 1×1 buffer whose bounding box sticks out past
the bottom-right: vertices `(0,0)`, `(1,0)`, `(0,1)`, all at depth 1. -/
def exTriC4 : TriArgs :=
  ⟨⟨0, 0, 1⟩, ⟨1, 0, 1⟩, ⟨0, 1, 1⟩, ⟨0, 0⟩, ⟨0, 0⟩, ⟨0, 0⟩, 1, tex1⟩

/-- Concrete degenerate draw call: the three vertices are collinear. -/
def exTriC5 : TriArgs :=
  ⟨⟨0, 0, 0⟩, ⟨1, 1, 0⟩, ⟨2, 2, 0⟩, ⟨0, 0⟩, ⟨0, 0⟩, ⟨0, 0⟩, 1, tex1⟩

/-- Concrete in-bounds draw call on a 4×4 buffer: right triangle `(0,0)`,
`(3,0)`, `(0,3)` at depth 1, intensity 1, uniform white texture. -/
def exTriC1 : TriArgs :=
  ⟨⟨0, 0, 1⟩, ⟨3, 0, 1⟩, ⟨0, 3, 1⟩, ⟨0, 0⟩, ⟨0, 1⟩, ⟨1, 0⟩, 1, tex1⟩

/-- A 1×1 renderer whose single depth entry has been raised to 5. -/
def exStateC3 : Renderer := zbufSet (initRenderer 1 1) 0 5

/-! ### Basic evaluation lemmas -/

theorem jsTrunc_intCast (n : ℤ) : jsTrunc (n : ℚ) = n := by
  unfold jsTrunc
  rcases le_or_lt 0 (n : ℚ) with h | h
  · rw [if_pos h, Int.floor_intCast]
  · rw [if_neg (not_le.mpr h), Int.ceil_intCast]

theorem jsTrunc_of_nonneg {q : ℚ} (h : 0 ≤ q) : jsTrunc q = ⌊q⌋ := if_pos h

@[simp] theorem writePx_width (s : Renderer) (idx : ℤ) (c : Color) :
    (writePx s idx c).width = s.width := by
  unfold writePx; split <;> rfl

@[simp] theorem writePx_height (s : Renderer) (idx : ℤ) (c : Color) :
    (writePx s idx c).height = s.height := by
  unfold writePx; split <;> rfl

@[simp] theorem writePx_zbuf (s : Renderer) (idx : ℤ) (c : Color) :
    (writePx s idx c).zbuf = s.zbuf := by
  unfold writePx; split <;> rfl

@[simp] theorem writePx_zlen (s : Renderer) (idx : ℤ) (c : Color) :
    (writePx s idx c).zlen = s.zlen := by
  unfold writePx; split <;> rfl

theorem writePx_px_of_ne (s : Renderer) (idx : ℤ) (c : Color) {i : ℤ} (h : i ≠ idx) :
    (writePx s idx c).px i = s.px i := by
  unfold writePx; split
  · simp [h]
  · rfl

theorem writePx_px_self (s : Renderer) (idx : ℤ) (c : Color)
    (h : 0 ≤ idx ∧ idx < (s.width * s.height : ℤ)) :
    (writePx s idx c).px idx = clampColor c := by
  unfold writePx
  rw [if_pos h]
  simp

@[simp] theorem pixelOp_width (s : Renderer) (v : ℚ × ℚ) (c : Color) :
    (pixelOp s v c).width = s.width := writePx_width ..

@[simp] theorem pixelOp_height (s : Renderer) (v : ℚ × ℚ) (c : Color) :
    (pixelOp s v c).height = s.height := writePx_height ..

@[simp] theorem pixelOp_zbuf (s : Renderer) (v : ℚ × ℚ) (c : Color) :
    (pixelOp s v c).zbuf = s.zbuf := writePx_zbuf ..

@[simp] theorem pixelOp_zlen (s : Renderer) (v : ℚ × ℚ) (c : Color) :
    (pixelOp s v c).zlen = s.zlen := writePx_zlen ..

@[simp] theorem zbufSet_width (s : Renderer) (idx : ℤ) (z : ℚ) :
    (zbufSet s idx z).width = s.width := rfl

@[simp] theorem zbufSet_height (s : Renderer) (idx : ℤ) (z : ℚ) :
    (zbufSet s idx z).height = s.height := rfl

@[simp] theorem zbufSet_px (s : Renderer) (idx : ℤ) (z : ℚ) :
    (zbufSet s idx z).px = s.px := rfl

theorem zbufSet_zbuf_of_ne (s : Renderer) (idx : ℤ) (z : ℚ) {i : ℤ} (h : i ≠ idx) :
    (zbufSet s idx z).zbuf i = s.zbuf i := by
  unfold zbufSet
  simp [h]

theorem zbufSet_zbuf_self (s : Renderer) (idx : ℤ) (z : ℚ) :
    (zbufSet s idx z).zbuf idx = some (.fin z) := by
  unfold zbufSet
  simp

/-! ### Per-step lemmas for the triangle scan -/

theorem triStep_of_skip (A : TriArgs) (s : Renderer) (p : ℤ × ℤ)
    (h : triSkip A s p) : triStep A s p = s := by
  unfold triStep
  rw [if_pos]
  simpa [triSkip] using h

theorem triStep_of_not_skip (A : TriArgs) (s : Renderer) (p : ℤ × ℤ)
    (h : ¬ triSkip A s p) :
    triStep A s p =
      pixelOp
        (zbufSet s (p.2 * (s.width : ℤ) + p.1) (triZ A (triBC A p.1 p.2)))
        ((p.1 : ℚ), (p.2 : ℚ))
        (scaleColor
          (getPixel A.tex
            ((A.t0.x * (triBC A p.1 p.2).1 + A.t1.x * (triBC A p.1 p.2).2.1 +
                A.t2.x * (triBC A p.1 p.2).2.2) * (A.tex.width : ℚ),
              (1 - (A.t0.y * (triBC A p.1 p.2).1 + A.t1.y * (triBC A p.1 p.2).2.1 +
                A.t2.y * (triBC A p.1 p.2).2.2)) * (A.tex.height : ℚ)))
          A.intensity) := by
  unfold triStep
  rw [if_neg]
  simpa [triSkip] using h

@[simp] theorem triStep_width (A : TriArgs) (s : Renderer) (p : ℤ × ℤ) :
    (triStep A s p).width = s.width := by
  by_cases h : triSkip A s p
  · rw [triStep_of_skip A s p h]
  · rw [triStep_of_not_skip A s p h]; simp

@[simp] theorem triStep_height (A : TriArgs) (s : Renderer) (p : ℤ × ℤ) :
    (triStep A s p).height = s.height := by
  by_cases h : triSkip A s p
  · rw [triStep_of_skip A s p h]
  · rw [triStep_of_not_skip A s p h]; simp

/-- A scan iteration touches no pixel-buffer cell other than its own flat
index. -/
theorem triStep_px_of_ne (A : TriArgs) (s : Renderer) (p : ℤ × ℤ) {i : ℤ}
    (h : i ≠ p.2 * (s.width : ℤ) + p.1) :
    (triStep A s p).px i = s.px i := by
  by_cases hs : triSkip A s p
  · rw [triStep_of_skip A s p hs]
  · rw [triStep_of_not_skip A s p hs]
    unfold pixelOp
    rw [writePx_px_of_ne]
    · rfl
    · simpa [pxIndex, jsTrunc_intCast] using h

/-- A scan iteration touches no z-buffer entry other than its own flat
index. -/
theorem triStep_zbuf_of_ne (A : TriArgs) (s : Renderer) (p : ℤ × ℤ) {i : ℤ}
    (h : i ≠ p.2 * (s.width : ℤ) + p.1) :
    (triStep A s p).zbuf i = s.zbuf i := by
  by_cases hs : triSkip A s p
  · rw [triStep_of_skip A s p hs]
  · rw [triStep_of_not_skip A s p hs]
    rw [pixelOp_zbuf]
    exact zbufSet_zbuf_of_ne _ _ _ h

/-- A negative barycentric component rejects the point in every state. -/
theorem triStep_of_bc_neg (A : TriArgs) (s : Renderer) (p : ℤ × ℤ)
    (h : (triBC A p.1 p.2).1 < 0 ∨ (triBC A p.1 p.2).2.1 < 0 ∨ (triBC A p.1 p.2).2.2 < 0) :
    triStep A s p = s :=
  triStep_of_skip A s p (by unfold triSkip; tauto)

/-! ### Fold-level frame lemmas -/

theorem foldl_triStep_width (A : TriArgs) (l : List (ℤ × ℤ)) (s : Renderer) :
    (l.foldl (triStep A) s).width = s.width := by
  induction l generalizing s with
  | nil => rfl
  | cons p tl ih => rw [List.foldl_cons, ih, triStep_width]

theorem foldl_triStep_height (A : TriArgs) (l : List (ℤ × ℤ)) (s : Renderer) :
    (l.foldl (triStep A) s).height = s.height := by
  induction l generalizing s with
  | nil => rfl
  | cons p tl ih => rw [List.foldl_cons, ih, triStep_height]

/-- Frame lemma for the scan: a flat index touched by no point of the list
(except, possibly, points whose barycentric test already rejects them in
every state) keeps its pixel bytes and z-buffer entry. -/
theorem foldl_triStep_frame (A : TriArgs) (l : List (ℤ × ℤ)) (s : Renderer) (i : ℤ)
    (h : ∀ p ∈ l, p.2 * (s.width : ℤ) + p.1 = i →
      (triBC A p.1 p.2).1 < 0 ∨ (triBC A p.1 p.2).2.1 < 0 ∨ (triBC A p.1 p.2).2.2 < 0) :
    (l.foldl (triStep A) s).px i = s.px i ∧
    (l.foldl (triStep A) s).zbuf i = s.zbuf i := by
  induction l generalizing s with
  | nil => exact ⟨rfl, rfl⟩
  | cons p tl ih =>
    rw [List.foldl_cons]
    have hw : (triStep A s p).width = s.width := triStep_width ..
    have htl := ih (triStep A s p) (by
      intro q hq hqi
      exact h q (List.mem_cons_of_mem _ hq) (by rw [← hqi, hw]))
    by_cases hp : p.2 * (s.width : ℤ) + p.1 = i
    · have hneg := h p (List.mem_cons_self ..) hp
      rw [triStep_of_bc_neg A s p hneg] at htl ⊢
      exact htl
    · refine ⟨?_, ?_⟩
      · rw [htl.1, triStep_px_of_ne A s p (fun hh => hp hh.symm)]
      · rw [htl.2, triStep_zbuf_of_ne A s p (fun hh => hp hh.symm)]

/-! ### The scan's point list -/

theorem mem_intRange {lo hi a : ℤ} : a ∈ intRange lo hi ↔ lo ≤ a ∧ a ≤ hi := by
  unfold intRange
  simp only [List.mem_map, List.mem_range]
  constructor
  · rintro ⟨k, hk, rfl⟩
    omega
  · intro ⟨h1, h2⟩
    exact ⟨(a - lo).toNat, by omega, by omega⟩

theorem intRange_nodup (lo hi : ℤ) : (intRange lo hi).Nodup := by
  unfold intRange
  refine List.Nodup.map ?_ (List.nodup_range ..)
  intro a b hab
  have h2 : lo + (a : ℤ) = lo + (b : ℤ) := hab
  omega

theorem mem_triPoints {A : TriArgs} {p : ℤ × ℤ} :
    p ∈ triPoints A ↔
      triXmin A ≤ p.1 ∧ p.1 ≤ triXmax A ∧ triYmin A ≤ p.2 ∧ p.2 ≤ triYmax A := by
  unfold triPoints
  rcases p with ⟨x, y⟩
  simp only [List.mem_flatMap, List.mem_map]
  constructor
  · rintro ⟨x', hx', y', hy', h⟩
    obtain ⟨rfl, rfl⟩ : x' = x ∧ y' = y := by
      constructor
      · exact congrArg Prod.fst h
      · exact congrArg Prod.snd h
    have h1 := mem_intRange.mp hx'
    have h2 := mem_intRange.mp hy'
    exact ⟨h1.1, h1.2, h2.1, h2.2⟩
  · intro ⟨h1, h2, h3, h4⟩
    exact ⟨x, mem_intRange.mpr ⟨h1, h2⟩, y, mem_intRange.mpr ⟨h3, h4⟩, rfl⟩

theorem triPoints_nodup (A : TriArgs) : (triPoints A).Nodup := by
  unfold triPoints
  rw [List.nodup_flatMap]
  constructor
  · intro x _
    refine List.Nodup.map ?_ (intRange_nodup ..)
    intro a b hab
    exact congrArg Prod.snd hab
  · refine (intRange_nodup (triXmin A) (triXmax A)).imp ?_
    intro a b hab
    simp only [Function.onFun, List.disjoint_left, List.mem_map]
    rintro p ⟨y1, _, h1⟩ ⟨y2, _, h2⟩
    apply hab
    have h3 : ((a, y1) : ℤ × ℤ) = (b, y2) := h1.trans h2.symm
    exact congrArg Prod.fst h3

/-- Row-major flat indices are injective on in-bounds pixel coordinates. -/
theorem pxIndex_inj {W H x x' y y' : ℤ}
    (hx : 0 ≤ x ∧ x < W) (hx' : 0 ≤ x' ∧ x' < W)
    (_hy : 0 ≤ y ∧ y < H) (_hy' : 0 ≤ y' ∧ y' < H)
    (h : y * W + x = y' * W + x') : x = x' ∧ y = y' := by
  have key : x - x' = (y' - y) * W := by linear_combination h
  rcases lt_trichotomy y y' with hlt | heq | hgt
  · exfalso
    have h2 : x - x' = (y' - y - 1) * W + W := by linear_combination h
    have h3 : 0 ≤ (y' - y - 1) * W := mul_nonneg (by omega) (by omega)
    omega
  · constructor
    · have : (y' - y) * W = 0 := by rw [heq]; ring
      omega
    · exact heq
  · exfalso
    have h2 : x' - x = (y - y' - 1) * W + W := by linear_combination - h
    have h3 : 0 ≤ (y - y' - 1) * W := mul_nonneg (by omega) (by omega)
    omega

/-! ### The barycentric evaluator against the analytic triangle -/

/-- For a nondegenerate triangle the computed weights sum to one and
reconstruct the query point. -/
theorem barycentric_combo (a b c p : V2) (hd : det2 a b c ≠ 0) :
    (barycentric a b c p).1 + (barycentric a b c p).2.1 + (barycentric a b c p).2.2 = 1 ∧
    p.x = (barycentric a b c p).1 * a.x + (barycentric a b c p).2.1 * b.x +
      (barycentric a b c p).2.2 * c.x ∧
    p.y = (barycentric a b c p).1 * a.y + (barycentric a b c p).2.1 * b.y +
      (barycentric a b c p).2.2 * c.y := by
  unfold barycentric
  rw [if_neg hd]
  refine ⟨by ring, ?_, ?_⟩
  · unfold det2 at hd ⊢
    field_simp
    ring
  · unfold det2 at hd ⊢
    field_simp
    ring

/-- For a nondegenerate triangle the weight representation is unique, so
the evaluator returns exactly the analytic weights. -/
theorem barycentric_unique (a b c p : V2) (hd : det2 a b c ≠ 0) (u v w : ℚ)
    (hsum : u + v + w = 1)
    (hx : p.x = u * a.x + v * b.x + w * c.x)
    (hy : p.y = u * a.y + v * b.y + w * c.y) :
    barycentric a b c p = (u, v, w) := by
  have hw : w = 1 - u - v := by linarith
  subst hw
  have h1 : (b.x - p.x) * (c.y - p.y) - (c.x - p.x) * (b.y - p.y) = u * det2 a b c := by
    rw [hx, hy]
    unfold det2
    ring
  have h2 : (c.x - p.x) * (a.y - p.y) - (a.x - p.x) * (c.y - p.y) = v * det2 a b c := by
    rw [hx, hy]
    unfold det2
    ring
  unfold barycentric
  rw [if_neg hd]
  simp only [h1, h2]
  rw [mul_div_cancel_right₀ _ hd, mul_div_cancel_right₀ _ hd]

/-- A lattice point is strictly inside the analytic triangle exactly when
all three computed barycentric weights are positive. -/
theorem strictlyInside_iff_bc (a b c p : V2) (hd : det2 a b c ≠ 0) :
    strictlyInside a b c p ↔
      0 < (barycentric a b c p).1 ∧ 0 < (barycentric a b c p).2.1 ∧
        0 < (barycentric a b c p).2.2 := by
  constructor
  · rintro ⟨u, v, w, hu, hv, hw, hsum, hx, hy⟩
    rw [barycentric_unique a b c p hd u v w hsum hx hy]
    exact ⟨hu, hv, hw⟩
  · intro ⟨h1, h2, h3⟩
    obtain ⟨hsum, hx, hy⟩ := barycentric_combo a b c p hd
    exact ⟨_, _, _, h1, h2, h3, hsum, hx, hy⟩

/-- A lattice point is outside the closed analytic triangle exactly when
some computed barycentric weight is negative. -/
theorem notInClosed_iff_bc (a b c p : V2) (hd : det2 a b c ≠ 0) :
    ¬ inClosed a b c p ↔
      ((barycentric a b c p).1 < 0 ∨ (barycentric a b c p).2.1 < 0 ∨
        (barycentric a b c p).2.2 < 0) := by
  constructor
  · intro hno
    by_contra hbc
    push_neg at hbc
    obtain ⟨hsum, hx, hy⟩ := barycentric_combo a b c p hd
    exact hno ⟨_, _, _, hbc.1, hbc.2.1, hbc.2.2, hsum, hx, hy⟩
  · intro hbc ⟨u, v, w, hu, hv, hw, hsum, hx, hy⟩
    rw [barycentric_unique a b c p hd u v w hsum hx hy] at hbc
    rcases hbc with h | h | h <;> simp only at h <;> linarith

/-! ### Claims -/

/-- Claim C10: `pixel` truncates each coordinate toward zero before
computing the row-major offset, so drawing at `(x, y)` and at
`(trunc x, trunc y)` writes the identical pixel; fractional coordinates are
never rounded to the nearest integer.  (Proved for every coordinate pair,
in particular every in-bounds one.) -/
theorem claim_C10 (s : Renderer) (v : ℚ × ℚ) (c : Color) :
    pixelOp s v c = pixelOp s ((jsTrunc v.1 : ℚ), (jsTrunc v.2 : ℚ)) c := by
  unfold pixelOp
  rw [jsTrunc_intCast, jsTrunc_intCast]

/-- Claim C5: a triangle draw call with collinear vertices (zero signed
area, so the modelled evaluator returns its all-rejecting sentinel) writes
no pixel and leaves every depth entry unchanged: the whole draw is the
identity on the renderer state. -/
theorem claim_C5 (s : Renderer) (A : TriArgs)
    (hdeg : det2 (proj A.v0) (proj A.v1) (proj A.v2) = 0) :
    triangleOp s A = s := by
  have hbc : ∀ x y : ℤ, triBC A x y = (-1, 1, 1) := by
    intro x y
    unfold triBC barycentric
    rw [if_pos hdeg]
  have hstep : ∀ (s' : Renderer) (p : ℤ × ℤ), triStep A s' p = s' := by
    intro s' p
    refine triStep_of_bc_neg A s' p ?_
    rw [hbc]
    norm_num
  unfold triangleOp
  induction triPoints A with
  | nil => rfl
  | cons p tl ih => rw [List.foldl_cons, hstep s p]; exact ih

/-- Claim C5 witness: the concrete collinear call on a 2×2 renderer. -/
theorem claim_C5_witness :
    det2 (proj exTriC5.v0) (proj exTriC5.v1) (proj exTriC5.v2) = 0 ∧
    triangleOp (initRenderer 2 2) exTriC5 = initRenderer 2 2 :=
  ⟨by norm_num [det2, proj, exTriC5], claim_C5 _ _ (by norm_num [det2, proj, exTriC5])⟩

/-- Claim C8: whenever a scan pixel passes the inside test (no negative
barycentric weight) and the depth test, and its flat index is inside the
buffer, the committed pixel bytes are the texel sampled at
`(u·textureWidth, (1-v)·textureHeight)` — `u`,`v` the barycentric blends of
the three texture coordinates — with RGB scaled by `intensity` and alpha
unchanged, and the interpolated `z` is committed to the depth entry. -/
theorem claim_C8 (A : TriArgs) (s : Renderer) (x y : ℤ)
    (hbc0 : ¬ (triBC A x y).1 < 0) (hbc1 : ¬ (triBC A x y).2.1 < 0)
    (hbc2 : ¬ (triBC A x y).2.2 < 0)
    (hdepth : jsLe (triZ A (triBC A x y)) (s.zbuf (y * (s.width : ℤ) + x)) = false)
    (hin : 0 ≤ y * (s.width : ℤ) + x ∧ y * (s.width : ℤ) + x < (s.width * s.height : ℤ)) :
    (triStep A s (x, y)).px (y * (s.width : ℤ) + x) =
      clampColor (scaleColor
        (getPixel A.tex
          ((A.t0.x * (triBC A x y).1 + A.t1.x * (triBC A x y).2.1 +
              A.t2.x * (triBC A x y).2.2) * (A.tex.width : ℚ),
            (1 - (A.t0.y * (triBC A x y).1 + A.t1.y * (triBC A x y).2.1 +
              A.t2.y * (triBC A x y).2.2)) * (A.tex.height : ℚ)))
        A.intensity) ∧
    (triStep A s (x, y)).zbuf (y * (s.width : ℤ) + x) =
      some (.fin (triZ A (triBC A x y))) := by
  have hns : ¬ triSkip A s (x, y) := by
    unfold triSkip
    push_neg
    refine ⟨not_lt.mp hbc0, not_lt.mp hbc1, not_lt.mp hbc2, ?_⟩
    simp [hdepth]
  rw [triStep_of_not_skip A s (x, y) hns]
  constructor
  · unfold pixelOp
    simp only [jsTrunc_intCast]
    have hidx : pxIndex (zbufSet s (y * (s.width : ℤ) + x) (triZ A (triBC A x y))) x y =
        y * (s.width : ℤ) + x := by
      unfold pxIndex
      rw [zbufSet_width]
    rw [hidx, writePx_px_self]
    rw [zbufSet_width, zbufSet_height]
    exact hin
  · rw [pixelOp_zbuf]
    exact zbufSet_zbuf_self ..

/-- Claim C8 witness: the in-bounds right triangle at pixel `(1, 1)` on a
fresh 4×4 renderer. -/
theorem claim_C8_witness :
    (triStep exTriC1 (initRenderer 4 4) (1, 1)).px 5 =
      clampColor (scaleColor
        (getPixel exTriC1.tex
          ((exTriC1.t0.x * (triBC exTriC1 1 1).1 + exTriC1.t1.x * (triBC exTriC1 1 1).2.1 +
              exTriC1.t2.x * (triBC exTriC1 1 1).2.2) * (exTriC1.tex.width : ℚ),
            (1 - (exTriC1.t0.y * (triBC exTriC1 1 1).1 + exTriC1.t1.y * (triBC exTriC1 1 1).2.1 +
              exTriC1.t2.y * (triBC exTriC1 1 1).2.2)) * (exTriC1.tex.height : ℚ)))
        exTriC1.intensity) ∧
    (triStep exTriC1 (initRenderer 4 4) (1, 1)).zbuf 5 =
      some (.fin (triZ exTriC1 (triBC exTriC1 1 1))) := by
  have h := claim_C8 exTriC1 (initRenderer 4 4) 1 1
    (by norm_num [triBC, barycentric, det2, proj, exTriC1])
    (by norm_num [triBC, barycentric, det2, proj, exTriC1])
    (by norm_num [triBC, barycentric, det2, proj, exTriC1])
    (by norm_num [jsLe, initRenderer])
    (by norm_num [initRenderer])
  simpa [initRenderer] using h

/-- Claim C9 counterexample: constructing with width `-5` and height `-10`
— both `≤ 0` — raises no error at all: `createImageData` takes the
absolute magnitudes and `new Array(50)` succeeds, so a 5×10 renderer is
silently produced. -/
theorem claim_C9_counterexample : mkRenderer (-5) (-10) = some (initRenderer 5 10) := by
  unfold mkRenderer
  norm_num

/-- Claim C9 amended: construction errors exactly when width or height is
zero or exactly one of them is negative (if both are negative it silently
succeeds with the absolute magnitudes); for positive width and height it
succeeds with every pixel opaque black, every depth entry `-Infinity`, and
a depth array of length `width*height`. -/
theorem claim_C9_amended (w h : ℤ) :
    (mkRenderer w h = none ↔ w = 0 ∨ h = 0 ∨ w * h < 0) ∧
    (0 < w → 0 < h →
      mkRenderer w h = some (initRenderer w.toNat h.toNat) ∧
      (∀ i : ℤ, (initRenderer w.toNat h.toNat).px i = black) ∧
      (∀ i : ℤ, 0 ≤ i → i < w * h → (initRenderer w.toNat h.toNat).zbuf i = some .ninf) ∧
      (initRenderer w.toNat h.toNat).zlen = w.toNat * h.toNat) := by
  constructor
  · unfold mkRenderer
    split_ifs with h1 h2
    · simp only [true_iff]
      tauto
    · simp only [true_iff]
      tauto
    · constructor
      · intro hx
        exact hx.elim
      · intro hc
        push_neg at h1
        rcases hc with hz | hz | hz
        exacts [absurd hz h1.1, absurd hz h1.2, absurd hz h2]
  · intro hw hh
    refine ⟨?_, fun i => rfl, ?_, rfl⟩
    · unfold mkRenderer
      rw [if_neg (by omega), if_neg (by push_neg; positivity)]
      have : w.natAbs = w.toNat ∧ h.natAbs = h.toNat := by omega
      rw [this.1, this.2]
    · intro i h0 hi
      unfold initRenderer
      simp only
      rw [if_pos ⟨h0, by
        rw [Int.toNat_of_nonneg hw.le, Int.toNat_of_nonneg hh.le]
        exact hi⟩]

/-- Claim C9 witness: `mkRenderer 3 2` succeeds as the amended claim
describes. -/
theorem claim_C9_witness :
    (mkRenderer 3 2 = none ↔ (3 : ℤ) = 0 ∨ (2 : ℤ) = 0 ∨ (3 : ℤ) * 2 < 0) ∧
    (mkRenderer 3 2 = some (initRenderer 3 2) ∧
      (∀ i : ℤ, (initRenderer 3 2).px i = black) ∧
      (∀ i : ℤ, 0 ≤ i → i < (3 : ℤ) * 2 → (initRenderer 3 2).zbuf i = some .ninf) ∧
      (initRenderer 3 2).zlen = 3 * 2) :=
  ⟨(claim_C9_amended 3 2).1, (claim_C9_amended 3 2).2 (by norm_num) (by norm_num)⟩

/-- Claim C2, evaluated at the failing input: on a fresh 2×1 renderer the
draw call `exTriC2` scans the points `(-1,0)`, `(-1,1)`, `(0,0)`, `(0,1)`;
the computed pixel `(-1, 1)` lies outside `[0,2)×[0,1)`, yet its flat index
`1*2 + (-1) = 1` aliases the in-bounds pixel `(1, 0)`, whose four bytes are
overwritten with white and whose depth entry becomes 1 — and `(-1, 1)` is
the only scanned point with flat index 1, so the write comes from the
out-of-bounds computed pixel alone. -/
theorem claim_C2_eval :
    (initRenderer 2 1).px 1 = black ∧
    (initRenderer 2 1).zbuf 1 = some .ninf ∧
    (triangleOp (initRenderer 2 1) exTriC2).px 1 = whitePx ∧
    (triangleOp (initRenderer 2 1) exTriC2).zbuf 1 = some (.fin 1) ∧
    (∀ p ∈ triPoints exTriC2, p.2 * 2 + p.1 = 1 → p = (-1, 1)) := by
  have hpts : triPoints exTriC2 = [(-1, 0), (-1, 1), (0, 0), (0, 1)] := by
    norm_num [triPoints, triXmin, triXmax, triYmin, triYmax, jsTrunc, min3, max3, exTriC2,
      intRange]
    rfl
  refine ⟨rfl, by norm_num [initRenderer], ?_, ?_, ?_⟩
  · rw [triangleOp, hpts]
    norm_num [triStep, triBC, triZ, barycentric, det2, proj, exTriC2, jsLe, zbufSet, pixelOp,
      writePx, pxIndex, getPixel, scaleColor, clampColor, jsClampByte, initRenderer, whitePx,
      tex1, uniformTex, jsTrunc, Int.ceil_neg, Int.floor_one, Int.floor_intCast]
  · rw [triangleOp, hpts]
    norm_num [triStep, triBC, triZ, barycentric, det2, proj, exTriC2, jsLe, zbufSet, pixelOp,
      writePx, pxIndex, getPixel, scaleColor, clampColor, jsClampByte, initRenderer, whitePx,
      tex1, uniformTex, jsTrunc, Int.ceil_neg, Int.floor_one, Int.floor_intCast]
  · rw [hpts]
    intro p hp h1
    simp only [List.mem_cons, List.not_mem_nil, or_false] at hp
    rcases hp with h | h | h | h <;> subst h <;> simp_all

/-- Claim C4, evaluated at the failing input: a fresh 1×1 renderer has a
depth array of exactly `1*1 = 1` entry, but drawing `exTriC4` — whose
bounding box reaches the out-of-bounds pixel `(0, 1)` with flat index 1 —
grows the JS depth array to length 2: it no longer has exactly
`width*height` entries. -/
theorem claim_C4_eval :
    (initRenderer 1 1).zlen = 1 ∧
    (triangleOp (initRenderer 1 1) exTriC4).zlen = 2 := by
  have hpts : triPoints exTriC4 = [(0, 0), (0, 1), (1, 0), (1, 1)] := by
    norm_num [triPoints, triXmin, triXmax, triYmin, triYmax, jsTrunc, min3, max3, exTriC4,
      intRange]
    rfl
  refine ⟨rfl, ?_⟩
  rw [triangleOp, hpts]
  norm_num [triStep, triBC, triZ, barycentric, det2, proj, exTriC4, jsLe, zbufSet, pixelOp,
    writePx, pxIndex, getPixel, scaleColor, clampColor, jsClampByte, initRenderer, whitePx,
    tex1, uniformTex, jsTrunc, Int.floor_one, Int.floor_intCast]
  rfl

/-! ### The two concrete line draws -/

theorem lineLoop_zero (c : Color) (steep : Bool) (dx dy sy : ℚ)
    (x y carry : ℚ) (s : Renderer) :
    lineLoop c steep dx dy sy 0 x y carry s = s := rfl

theorem lineLoop_succ (c : Color) (steep : Bool) (dx dy sy : ℚ) (n : ℕ)
    (x y carry : ℚ) (s : Renderer) :
    lineLoop c steep dx dy sy (n + 1) x y carry s =
      (if dx < carry + sy then
        lineLoop c steep dx dy sy n (x + 1) (y + if 0 < dy then 1 else -1)
          (carry + sy - dx * 2)
          (if steep then pixelOp s (y, x) c else pixelOp s (x, y) c)
      else
        lineLoop c steep dx dy sy n (x + 1) y (carry + sy)
          (if steep then pixelOp s (y, x) c else pixelOp s (x, y) c)) := rfl

theorem pixelOp_trunc (s : Renderer) (v : ℚ × ℚ) (c : Color) :
    pixelOp s v c = writePx s (jsTrunc v.2 * (s.width : ℤ) + jsTrunc v.1) c := rfl

theorem writeList_width (l : List ℤ) (c : Color) (s : Renderer) :
    (writeList l c s).width = s.width := by
  unfold writeList
  induction l generalizing s with
  | nil => rfl
  | cons j tl ih => rw [List.foldl_cons, ih, writePx_width]

theorem writeList_height (l : List ℤ) (c : Color) (s : Renderer) :
    (writeList l c s).height = s.height := by
  unfold writeList
  induction l generalizing s with
  | nil => rfl
  | cons j tl ih => rw [List.foldl_cons, ih, writePx_height]

/-- The pixel cells after a run of same-color stores: every listed in-range
index holds the stored bytes, every other cell is untouched. -/
theorem writeList_px (l : List ℤ) (c : Color) (s : Renderer)
    (hin : ∀ j ∈ l, 0 ≤ j ∧ j < (s.width * s.height : ℤ)) (i : ℤ) :
    (writeList l c s).px i = if i ∈ l then clampColor c else s.px i := by
  unfold writeList
  induction l generalizing s with
  | nil => simp
  | cons j tl ih =>
    rw [List.foldl_cons]
    have hj := hin j (List.mem_cons_self ..)
    have htl := ih (writePx s j c) (by
      intro q hq
      rw [writePx_width, writePx_height]
      exact hin q (List.mem_cons_of_mem _ hq))
    rw [htl]
    by_cases hmem : i ∈ tl
    · simp [hmem, List.mem_cons]
    · by_cases hij : i = j
      · subst hij
        simp [hmem, writePx_px_self s i c hj]
      · simp [hmem, hij, writePx_px_of_ne s j c hij]

/-- If an in-bounds pixel's flat index decomposes over a row/column pair
that is itself in bounds, the pixel is that row/column pair. -/
theorem lineRow_case (K XK : ℤ) {s : Renderer} {x y V : ℤ}
    (hc : y * (s.width : ℤ) + x = V) (hV : V = K * (s.width : ℤ) + XK)
    (hx0 : 0 ≤ x) (hx1 : x < (s.width : ℤ)) (hy0 : 0 ≤ y) (hy1 : y < (s.height : ℤ))
    (hXK : 0 ≤ XK) (hXK' : XK < (s.width : ℤ)) (hK : 0 ≤ K) (hK' : K < (s.height : ℤ)) :
    x = XK ∧ y = K := by
  rw [hV] at hc
  exact pxIndex_inj ⟨hx0, hx1⟩ ⟨hXK, hXK'⟩ ⟨hy0, hy1⟩ ⟨hK, hK'⟩ hc

/-- `line((0,0), (5,0), c)` is the six stores at flat indices 0..5. -/
theorem lineC6_eq (s : Renderer) (c : Color) :
    lineOp s (0, 0) (5, 0) c = writeList [0, 1, 2, 3, 4, 5] c s := by
  have hsetup : lineSetup (0, 0) (5, 0) = ⟨false, 0, 0, 5, 0⟩ := by
    norm_num [lineSetup]
  have hcount : lineCount 0 5 = 6 := by
    norm_num [lineCount]
    rfl
  unfold lineOp
  rw [hsetup]
  simp only
  rw [hcount]
  rw [show (6 : ℕ) = 5 + 1 from rfl, lineLoop_succ, if_neg (by norm_num)]
  rw [show (5 : ℕ) = 4 + 1 from rfl, lineLoop_succ, if_neg (by norm_num)]
  rw [show (4 : ℕ) = 3 + 1 from rfl, lineLoop_succ, if_neg (by norm_num)]
  rw [show (3 : ℕ) = 2 + 1 from rfl, lineLoop_succ, if_neg (by norm_num)]
  rw [show (2 : ℕ) = 1 + 1 from rfl, lineLoop_succ, if_neg (by norm_num)]
  rw [show (1 : ℕ) = 0 + 1 from rfl, lineLoop_succ, if_neg (by norm_num)]
  rw [lineLoop_zero]
  norm_num [pixelOp_trunc, writeList, List.foldl, jsTrunc, writePx_width,
    Int.floor_intCast, Int.floor_one, Int.floor_ofNat]

/-- Claim C6: `line((0,0), (5,0), c)` writes exactly the six pixels
`(0,0)` .. `(5,0)` — flat indices `pxIndex s k 0 = k` for `k = 0..5` —
each with the given color's stored bytes, and no other pixel of the
buffer. -/
theorem claim_C6 (s : Renderer) (c : Color) (hW : 6 ≤ s.width) (hH : 1 ≤ s.height) :
    (∀ k : ℤ, 0 ≤ k → k ≤ 5 →
      (lineOp s (0, 0) (5, 0) c).px (pxIndex s k 0) = clampColor c) ∧
    (∀ x y : ℤ, 0 ≤ x → x < (s.width : ℤ) → 0 ≤ y → y < (s.height : ℤ) →
      ¬(y = 0 ∧ 0 ≤ x ∧ x ≤ 5) →
      (lineOp s (0, 0) (5, 0) c).px (pxIndex s x y) = s.px (pxIndex s x y)) := by
  have hWH : (6 : ℤ) ≤ (s.width : ℤ) * (s.height : ℤ) := by
    have h1 : 6 * 1 ≤ s.width * s.height := Nat.mul_le_mul hW hH
    exact_mod_cast h1
  have hin : ∀ j ∈ ([0, 1, 2, 3, 4, 5] : List ℤ),
      0 ≤ j ∧ j < (s.width * s.height : ℤ) := by
    intro j hj
    fin_cases hj <;> constructor <;> omega
  constructor
  · intro k hk0 hk5
    rw [lineC6_eq, writeList_px _ _ _ hin]
    have hidx : pxIndex s k 0 = k := by
      unfold pxIndex
      ring
    rw [hidx, if_pos (by interval_cases k <;> decide)]
  · intro x y hx0 hx1 hy0 hy1 hne
    rw [lineC6_eq, writeList_px _ _ _ hin]
    unfold pxIndex
    rw [if_neg]
    intro hmem
    simp only [List.mem_cons, List.not_mem_nil, or_false] at hmem
    rcases hmem with hc | hc | hc | hc | hc | hc
    · have h2 := lineRow_case 0 0 hc (by ring) hx0 hx1 hy0 hy1 (by norm_num)
        (by omega) (by norm_num) (by omega)
      exact hne ⟨h2.2, by omega, by omega⟩
    · have h2 := lineRow_case 0 1 hc (by ring) hx0 hx1 hy0 hy1 (by norm_num)
        (by omega) (by norm_num) (by omega)
      exact hne ⟨h2.2, by omega, by omega⟩
    · have h2 := lineRow_case 0 2 hc (by ring) hx0 hx1 hy0 hy1 (by norm_num)
        (by omega) (by norm_num) (by omega)
      exact hne ⟨h2.2, by omega, by omega⟩
    · have h2 := lineRow_case 0 3 hc (by ring) hx0 hx1 hy0 hy1 (by norm_num)
        (by omega) (by norm_num) (by omega)
      exact hne ⟨h2.2, by omega, by omega⟩
    · have h2 := lineRow_case 0 4 hc (by ring) hx0 hx1 hy0 hy1 (by norm_num)
        (by omega) (by norm_num) (by omega)
      exact hne ⟨h2.2, by omega, by omega⟩
    · have h2 := lineRow_case 0 5 hc (by ring) hx0 hx1 hy0 hy1 (by norm_num)
        (by omega) (by norm_num) (by omega)
      exact hne ⟨h2.2, by omega, by omega⟩

/-- Claim C6 witness: the draw on a fresh 6×1 renderer, checked at pixel
`(5, 0)`. -/
theorem claim_C6_witness :
    (lineOp (initRenderer 6 1) (0, 0) (5, 0) cEx).px (pxIndex (initRenderer 6 1) 5 0) =
      clampColor cEx :=
  (claim_C6 (initRenderer 6 1) cEx (by norm_num [initRenderer])
    (by norm_num [initRenderer])).1 5 (by norm_num) (by norm_num)

/-- `line((0,0), (3,10), c)` takes the steep branch and is the eleven
stores of `c7Pixels`. -/
theorem lineC7_eq (s : Renderer) (c : Color) :
    lineOp s (0, 0) (3, 10) c = writeList (c7Pixels (s.width : ℤ)) c s := by
  have hsetup : lineSetup (0, 0) (3, 10) = ⟨true, 0, 0, 10, 3⟩ := by
    norm_num [lineSetup]
  have hcount : lineCount 0 10 = 11 := by
    norm_num [lineCount]
    rfl
  unfold lineOp
  rw [hsetup]
  simp only
  rw [hcount]
  rw [show (11 : ℕ) = 10 + 1 from rfl, lineLoop_succ, if_neg (by norm_num)]
  rw [show (10 : ℕ) = 9 + 1 from rfl, lineLoop_succ, if_pos (by norm_num)]
  rw [show (9 : ℕ) = 8 + 1 from rfl, lineLoop_succ, if_neg (by norm_num)]
  rw [show (8 : ℕ) = 7 + 1 from rfl, lineLoop_succ, if_neg (by norm_num)]
  rw [show (7 : ℕ) = 6 + 1 from rfl, lineLoop_succ, if_neg (by norm_num)]
  rw [show (6 : ℕ) = 5 + 1 from rfl, lineLoop_succ, if_pos (by norm_num)]
  rw [show (5 : ℕ) = 4 + 1 from rfl, lineLoop_succ, if_neg (by norm_num)]
  rw [show (4 : ℕ) = 3 + 1 from rfl, lineLoop_succ, if_neg (by norm_num)]
  rw [show (3 : ℕ) = 2 + 1 from rfl, lineLoop_succ, if_pos (by norm_num)]
  rw [show (2 : ℕ) = 1 + 1 from rfl, lineLoop_succ, if_neg (by norm_num)]
  rw [show (1 : ℕ) = 0 + 1 from rfl, lineLoop_succ, if_neg (by norm_num)]
  rw [lineLoop_zero]
  norm_num [c7Pixels, pixelOp_trunc, writeList, List.foldl, jsTrunc, writePx_width,
    Int.floor_intCast, Int.floor_one, Int.floor_ofNat]

/-- Claim C7: `line((0,0), (3,10), c)` takes the steep (y-dominant,
transposed) branch and writes exactly eleven pixels, one per integer row
`k = 0..10` (at column `c7X k`), and no other pixel of the buffer. -/
theorem claim_C7 (s : Renderer) (c : Color) (hW : 4 <= s.width) (hH : 11 <= s.height) :
    (lineSetup (0, 0) (3, 10)).steep = true ∧
    (∀ k : ℤ, 0 ≤ k → k ≤ 10 →
      (lineOp s (0, 0) (3, 10) c).px (pxIndex s (c7X k) k) = clampColor c) ∧
    (∀ x y : ℤ, 0 ≤ x → x < (s.width : ℤ) → 0 ≤ y → y < (s.height : ℤ) →
      ¬(0 ≤ y ∧ y ≤ 10 ∧ x = c7X y) →
      (lineOp s (0, 0) (3, 10) c).px (pxIndex s x y) = s.px (pxIndex s x y)) := by
  have hsteep : (lineSetup (0, 0) (3, 10)).steep = true := by
    norm_num [lineSetup]
  have hWH : 11 * (s.width : ℤ) ≤ (s.width : ℤ) * (s.height : ℤ) := by
    have h2 : (s.width * 11 : ℕ) ≤ s.width * s.height := Nat.mul_le_mul_left s.width hH
    push_cast at h2
    linarith
  have hin : ∀ j ∈ c7Pixels (s.width : ℤ), 0 ≤ j ∧ j < (s.width * s.height : ℤ) := by
    intro j hj
    simp only [c7Pixels, List.mem_cons, List.not_mem_nil, or_false] at hj
    rcases hj with rfl | rfl | rfl | rfl | rfl | rfl | rfl | rfl | rfl | rfl | rfl <;>
      constructor <;> omega
  refine ⟨hsteep, ?_, ?_⟩
  · intro k hk0 hk10
    have hmem : pxIndex s (c7X k) k ∈ c7Pixels (s.width : ℤ) := by
      unfold pxIndex
      interval_cases k <;> norm_num [c7X, c7Pixels]
    rw [lineC7_eq, writeList_px _ _ _ hin, if_pos hmem]
  · intro x y hx0 hx1 hy0 hy1 hne
    rw [lineC7_eq, writeList_px _ _ _ hin]
    unfold pxIndex
    rw [if_neg]
    intro hmem
    simp only [c7Pixels, List.mem_cons, List.not_mem_nil, or_false] at hmem
    rcases hmem with hc | hc | hc | hc | hc | hc | hc | hc | hc | hc | hc
    · have h2 := lineRow_case 0 0 hc (by ring) hx0 hx1 hy0 hy1 (by norm_num)
        (by omega) (by norm_num) (by omega)
      exact hne ⟨by omega, by omega, by rw [h2.2]; norm_num [c7X]; exact h2.1⟩
    · have h2 := lineRow_case 1 0 hc (by ring) hx0 hx1 hy0 hy1 (by norm_num)
        (by omega) (by norm_num) (by omega)
      exact hne ⟨by omega, by omega, by rw [h2.2]; norm_num [c7X]; exact h2.1⟩
    · have h2 := lineRow_case 2 1 hc (by ring) hx0 hx1 hy0 hy1 (by norm_num)
        (by omega) (by norm_num) (by omega)
      exact hne ⟨by omega, by omega, by rw [h2.2]; norm_num [c7X]; exact h2.1⟩
    · have h2 := lineRow_case 3 1 hc (by ring) hx0 hx1 hy0 hy1 (by norm_num)
        (by omega) (by norm_num) (by omega)
      exact hne ⟨by omega, by omega, by rw [h2.2]; norm_num [c7X]; exact h2.1⟩
    · have h2 := lineRow_case 4 1 hc (by ring) hx0 hx1 hy0 hy1 (by norm_num)
        (by omega) (by norm_num) (by omega)
      exact hne ⟨by omega, by omega, by rw [h2.2]; norm_num [c7X]; exact h2.1⟩
    · have h2 := lineRow_case 5 1 hc (by ring) hx0 hx1 hy0 hy1 (by norm_num)
        (by omega) (by norm_num) (by omega)
      exact hne ⟨by omega, by omega, by rw [h2.2]; norm_num [c7X]; exact h2.1⟩
    · have h2 := lineRow_case 6 2 hc (by ring) hx0 hx1 hy0 hy1 (by norm_num)
        (by omega) (by norm_num) (by omega)
      exact hne ⟨by omega, by omega, by rw [h2.2]; norm_num [c7X]; exact h2.1⟩
    · have h2 := lineRow_case 7 2 hc (by ring) hx0 hx1 hy0 hy1 (by norm_num)
        (by omega) (by norm_num) (by omega)
      exact hne ⟨by omega, by omega, by rw [h2.2]; norm_num [c7X]; exact h2.1⟩
    · have h2 := lineRow_case 8 2 hc (by ring) hx0 hx1 hy0 hy1 (by norm_num)
        (by omega) (by norm_num) (by omega)
      exact hne ⟨by omega, by omega, by rw [h2.2]; norm_num [c7X]; exact h2.1⟩
    · have h2 := lineRow_case 9 3 hc (by ring) hx0 hx1 hy0 hy1 (by norm_num)
        (by omega) (by norm_num) (by omega)
      exact hne ⟨by omega, by omega, by rw [h2.2]; norm_num [c7X]; exact h2.1⟩
    · have h2 := lineRow_case 10 3 hc (by ring) hx0 hx1 hy0 hy1 (by norm_num)
        (by omega) (by norm_num) (by omega)
      exact hne ⟨by omega, by omega, by rw [h2.2]; norm_num [c7X]; exact h2.1⟩

/-- Claim C7 witness: the draw on a fresh 4×11 renderer, checked at the
row-10 pixel. -/
theorem claim_C7_witness :
    (lineSetup (0, 0) (3, 10)).steep = true ∧
    (lineOp (initRenderer 4 11) (0, 0) (3, 10) cEx).px
      (pxIndex (initRenderer 4 11) (c7X 10) 10) = clampColor cEx := by
  have h := claim_C7 (initRenderer 4 11) cEx (by norm_num [initRenderer])
    (by norm_num [initRenderer])
  exact ⟨h.1, h.2.1 10 (by norm_num) (by norm_num)⟩

/-! ### Depth-test monotonicity and claim C3 -/

theorem jsLe_eq_true_iff (z : ℚ) (e : Option JNum) :
    jsLe z e = true ↔ ∃ q : ℚ, e = some (.fin q) ∧ z ≤ q := by
  constructor
  · intro h
    match e with
    | none => exact absurd h (by unfold jsLe; simp)
    | some .ninf => exact absurd h (by unfold jsLe; simp)
    | some (.fin q) =>
      refine ⟨q, rfl, ?_⟩
      unfold jsLe at h
      exact of_decide_eq_true h
  · rintro ⟨q, rfl, hq⟩
    unfold jsLe
    exact decide_eq_true hq

/-- One scan iteration never weakens a z-buffer entry. -/
theorem triStep_zbuf_entryLE (A : TriArgs) (s : Renderer) (p : ℤ × ℤ) (i : ℤ) :
    entryLE (s.zbuf i) ((triStep A s p).zbuf i) := by
  by_cases hs : triSkip A s p
  · rw [triStep_of_skip _ _ _ hs]
    exact fun z h => h
  · rw [triStep_of_not_skip _ _ _ hs, pixelOp_zbuf]
    by_cases hi : i = p.2 * (s.width : ℤ) + p.1
    · subst hi
      rw [zbufSet_zbuf_self]
      intro z' hz'
      have hdepth : jsLe (triZ A (triBC A p.1 p.2))
          (s.zbuf (p.2 * (s.width : ℤ) + p.1)) = false := by
        unfold triSkip at hs
        push_neg at hs
        simpa using hs.2.2.2
      rcases (jsLe_eq_true_iff _ _).mp hz' with ⟨q, he, hzq⟩
      rw [he] at hdepth
      unfold jsLe at hdepth
      have hlt : q < triZ A (triBC A p.1 p.2) := by
        have := of_decide_eq_false hdepth
        linarith
      exact (jsLe_eq_true_iff _ _).mpr ⟨_, rfl, by linarith⟩
    · rw [zbufSet_zbuf_of_ne _ _ _ hi]
      exact fun z h => h

/-- The whole scan never weakens a z-buffer entry. -/
theorem foldl_triStep_entryLE (A : TriArgs) (l : List (ℤ × ℤ)) (s : Renderer) (i : ℤ) :
    entryLE (s.zbuf i) ((l.foldl (triStep A) s).zbuf i) := by
  induction l generalizing s with
  | nil => exact fun z h => h
  | cons q tl ih =>
    rw [List.foldl_cons]
    intro z hz
    exact ih (triStep A s q) z (triStep_zbuf_entryLE A s q i z hz)

/-- After a scan, every point of the scan that survives the barycentric
test has its interpolated depth blocked by the final z-buffer entry at its
flat index. -/
theorem foldl_triStep_depth_inv (A : TriArgs) (l : List (ℤ × ℤ)) (s : Renderer) :
    ∀ p ∈ l,
      ¬((triBC A p.1 p.2).1 < 0 ∨ (triBC A p.1 p.2).2.1 < 0 ∨ (triBC A p.1 p.2).2.2 < 0) →
      jsLe (triZ A (triBC A p.1 p.2))
        ((l.foldl (triStep A) s).zbuf (p.2 * (s.width : ℤ) + p.1)) = true := by
  induction l generalizing s with
  | nil =>
    intro p hp
    simp at hp
  | cons q tl ih =>
    intro p hp hneg
    rw [List.foldl_cons]
    rcases List.mem_cons.mp hp with rfl | hp'
    · have h1 : jsLe (triZ A (triBC A p.1 p.2))
          ((triStep A s p).zbuf (p.2 * (s.width : ℤ) + p.1)) = true := by
        by_cases hs : triSkip A s p
        · rw [triStep_of_skip _ _ _ hs]
          unfold triSkip at hs
          rcases hs with h | h | h | h
          · exact absurd (Or.inl h) hneg
          · exact absurd (Or.inr (Or.inl h)) hneg
          · exact absurd (Or.inr (Or.inr h)) hneg
          · exact h
        · rw [triStep_of_not_skip _ _ _ hs, pixelOp_zbuf, zbufSet_zbuf_self]
          exact (jsLe_eq_true_iff _ _).mpr ⟨_, rfl, le_refl _⟩
      exact foldl_triStep_entryLE A tl (triStep A s p) (p.2 * (s.width : ℤ) + p.1) _ h1
    · have h3 := ih (triStep A s q) p hp' hneg
      rwa [triStep_width] at h3

/-- A fold over steps that all fix the state fixes the state. -/
theorem foldl_triStep_fix (A : TriArgs) (l : List (ℤ × ℤ)) (s : Renderer)
    (h : ∀ p ∈ l, triStep A s p = s) : l.foldl (triStep A) s = s := by
  induction l with
  | nil => rfl
  | cons q tl ih =>
    rw [List.foldl_cons, h q (List.mem_cons_self ..)]
    exact ih (fun p hp => h p (List.mem_cons_of_mem _ hp))

/-- Claim C3: a scan pixel whose interpolated depth is less than or equal
to the current (finite) depth-buffer value at its flat index leaves the
whole renderer state unchanged — neither the pixel buffer nor the depth
buffer is modified there; consequently a triangle draw is idempotent:
repeating the identical draw (same vertices, hence identical interpolated
depths) changes nothing, so the first draw's colors survive at every
overlapping pixel. -/
theorem claim_C3 (A : TriArgs) (s : Renderer) :
    (∀ x y : ℤ,
      jsLe (triZ A (triBC A x y)) (s.zbuf (y * (s.width : ℤ) + x)) = true →
      triStep A s (x, y) = s) ∧
    triangleOp (triangleOp s A) A = triangleOp s A := by
  constructor
  · intro x y h
    exact triStep_of_skip A s (x, y) (Or.inr (Or.inr (Or.inr h)))
  · unfold triangleOp
    apply foldl_triStep_fix
    intro p hp
    by_cases hneg : (triBC A p.1 p.2).1 < 0 ∨ (triBC A p.1 p.2).2.1 < 0 ∨
        (triBC A p.1 p.2).2.2 < 0
    · exact triStep_of_bc_neg _ _ _ hneg
    · have h1 := foldl_triStep_depth_inv A (triPoints A) s p hp hneg
      refine triStep_of_skip _ _ _ ?_
      unfold triSkip
      refine Or.inr (Or.inr (Or.inr ?_))
      rw [foldl_triStep_width]
      exact h1

/-- Claim C3 witness: a depth-tie rejection on a raised 1×1 depth buffer,
and idempotence of a concrete draw. -/
theorem claim_C3_witness :
    triStep exTriC5 exStateC3 (0, 0) = exStateC3 ∧
    triangleOp (triangleOp (initRenderer 1 1) exTriC5) exTriC5 =
      triangleOp (initRenderer 1 1) exTriC5 :=
  ⟨(claim_C3 exTriC5 exStateC3).1 0 0 (by
      norm_num [exTriC5, exStateC3, triBC, triZ, barycentric, det2, proj, jsLe, zbufSet,
        initRenderer, tex1]),
    (claim_C3 exTriC5 (initRenderer 1 1)).2⟩

/-! ### Convex-combination bounds and the bounding box -/

theorem le_blend {u v w a b c m : ℚ} (hu : 0 ≤ u) (hv : 0 ≤ v) (hw : 0 ≤ w)
    (hsum : u + v + w = 1) (ha : m ≤ a) (hb : m ≤ b) (hc : m ≤ c) :
    m ≤ u * a + v * b + w * c := by
  have h1 : u * m ≤ u * a := mul_le_mul_of_nonneg_left ha hu
  have h2 : v * m ≤ v * b := mul_le_mul_of_nonneg_left hb hv
  have h3 : w * m ≤ w * c := mul_le_mul_of_nonneg_left hc hw
  have h4 : u * m + v * m + w * m = m := by linear_combination m * hsum
  linarith

theorem blend_le {u v w a b c M : ℚ} (hu : 0 ≤ u) (hv : 0 ≤ v) (hw : 0 ≤ w)
    (hsum : u + v + w = 1) (ha : a ≤ M) (hb : b ≤ M) (hc : c ≤ M) :
    u * a + v * b + w * c ≤ M := by
  have h1 : u * a ≤ u * M := mul_le_mul_of_nonneg_left ha hu
  have h2 : v * b ≤ v * M := mul_le_mul_of_nonneg_left hb hv
  have h3 : w * c ≤ w * M := mul_le_mul_of_nonneg_left hc hw
  have h4 : u * M + v * M + w * M = M := by linear_combination M * hsum
  linarith

theorem blend_lt {u v w a b c M : ℚ} (hu : 0 < u) (hv : 0 ≤ v) (hw : 0 ≤ w)
    (hsum : u + v + w = 1) (ha : a < M) (hb : b ≤ M) (hc : c ≤ M) :
    u * a + v * b + w * c < M := by
  have h1 : u * a < u * M := mul_lt_mul_of_pos_left ha hu
  have h2 : v * b ≤ v * M := mul_le_mul_of_nonneg_left hb hv
  have h3 : w * c ≤ w * M := mul_le_mul_of_nonneg_left hc hw
  have h4 : u * M + v * M + w * M = M := by linear_combination M * hsum
  linarith

theorem pxIndex_bounds {W H x y : ℤ} (hx0 : 0 ≤ x) (hx1 : x < W)
    (hy0 : 0 ≤ y) (hy1 : y < H) : 0 ≤ y * W + x ∧ y * W + x < W * H := by
  constructor
  · have h1 : 0 ≤ y * W := mul_nonneg hy0 (by omega)
    omega
  · have h1 : y * W ≤ (H - 1) * W := mul_le_mul_of_nonneg_right (by omega) (by omega)
    have h2 : (H - 1) * W + W = W * H := by ring
    omega

theorem triBC_def (A : TriArgs) (x y : ℤ) :
    triBC A x y =
      barycentric (proj A.v0) (proj A.v1) (proj A.v2) ⟨(x : ℚ), (y : ℚ)⟩ := rfl

/-- With all three vertices inside the buffer, the truncated bounding box
sits inside the buffer, so every scanned point is an in-bounds pixel. -/
theorem triPoints_inBounds {W H : ℕ} {A : TriArgs}
    (h0 : inBuffer W H A.v0) (h1 : inBuffer W H A.v1) (h2 : inBuffer W H A.v2) :
    ∀ q ∈ triPoints A,
      0 ≤ q.1 ∧ q.1 < (W : ℤ) ∧ 0 ≤ q.2 ∧ q.2 < (H : ℤ) := by
  intro q hq
  obtain ⟨ha, hb, hc, hd⟩ := mem_triPoints.mp hq
  obtain ⟨h0x, h0x', h0y, h0y'⟩ := h0
  obtain ⟨h1x, h1x', h1y, h1y'⟩ := h1
  obtain ⟨h2x, h2x', h2y, h2y'⟩ := h2
  have hminx : (0 : ℚ) ≤ min3 A.v0.x A.v1.x A.v2.x := by
    unfold min3
    simp only [le_min_iff]
    exact ⟨h0x, h1x, h2x⟩
  have hmaxx : max3 A.v0.x A.v1.x A.v2.x < (W : ℚ) := by
    unfold max3
    simp only [max_lt_iff]
    exact ⟨h0x', h1x', h2x'⟩
  have hminy : (0 : ℚ) ≤ min3 A.v0.y A.v1.y A.v2.y := by
    unfold min3
    simp only [le_min_iff]
    exact ⟨h0y, h1y, h2y⟩
  have hmaxy : max3 A.v0.y A.v1.y A.v2.y < (H : ℚ) := by
    unfold max3
    simp only [max_lt_iff]
    exact ⟨h0y', h1y', h2y'⟩
  have e1 : 0 ≤ triXmin A := by
    unfold triXmin
    rw [jsTrunc_of_nonneg hminx]
    exact Int.le_floor.mpr (by exact_mod_cast hminx)
  have e2 : triXmax A < (W : ℤ) := by
    unfold triXmax
    rw [jsTrunc_of_nonneg (by
      unfold max3 at hmaxx ⊢
      unfold min3 at hminx
      simp only [le_max_iff]
      left
      linarith [le_min_iff.mp (le_refl (min A.v0.x (min A.v1.x A.v2.x)))])]
    exact Int.floor_lt.mpr (by exact_mod_cast hmaxx)
  have e3 : 0 ≤ triYmin A := by
    unfold triYmin
    rw [jsTrunc_of_nonneg hminy]
    exact Int.le_floor.mpr (by exact_mod_cast hminy)
  have e4 : triYmax A < (H : ℤ) := by
    unfold triYmax
    rw [jsTrunc_of_nonneg (by
      unfold max3
      simp only [le_max_iff]
      left
      exact h0y)]
    exact Int.floor_lt.mpr (by exact_mod_cast hmaxy)
  exact ⟨by omega, by omega, by omega, by omega⟩

theorem initRenderer_width (w h : ℕ) : (initRenderer w h).width = w := rfl

theorem initRenderer_height (w h : ℕ) : (initRenderer w h).height = h := rfl

theorem initRenderer_px (w h : ℕ) (i : ℤ) : (initRenderer w h).px i = black := rfl

theorem initRenderer_zbuf_in (w h : ℕ) (i : ℤ)
    (hi : 0 ≤ i ∧ i < (w * h : ℤ)) : (initRenderer w h).zbuf i = some .ninf := by
  unfold initRenderer
  simp only
  rw [if_pos (by exact_mod_cast hi)]

theorem min3_le_a (a b c : ℚ) : min3 a b c ≤ a := min_le_left ..

theorem min3_le_b (a b c : ℚ) : min3 a b c ≤ b :=
  le_trans (min_le_right ..) (min_le_left ..)

theorem min3_le_c (a b c : ℚ) : min3 a b c ≤ c :=
  le_trans (min_le_right ..) (min_le_right ..)

theorem le_max3_a (a b c : ℚ) : a ≤ max3 a b c := le_max_left ..

theorem le_max3_b (a b c : ℚ) : b ≤ max3 a b c :=
  le_trans (le_max_left ..) (le_max_right ..)

theorem le_max3_c (a b c : ℚ) : c ≤ max3 a b c :=
  le_trans (le_max_right ..) (le_max_right ..)

theorem clamp_white : clampColor (scaleColor whitePx 1) = whitePx := by
  norm_num [clampColor, scaleColor, whitePx, jsClampByte]

theorem min3_nonneg {a b c : ℚ} (ha : 0 ≤ a) (hb : 0 ≤ b) (hc : 0 ≤ c) :
    0 ≤ min3 a b c := by
  unfold min3
  exact le_min_iff.mpr ⟨ha, le_min_iff.mpr ⟨hb, hc⟩⟩

/-- Claim C1: drawing a positive-area triangle whose vertices all lie
inside the buffer, with intensity 1 against a uniform white texture, on a
fresh renderer: every lattice pixel strictly inside the analytic triangle
(a convex combination of the vertices with positive weights) is written
white, and every in-bounds pixel strictly outside the closed triangle
keeps its initial bytes (black) and its initial depth entry (-Infinity). -/
theorem claim_C1 (W H : ℕ) (A : TriArgs)
    (hI : A.intensity = 1)
    (htex : ∀ i : ℤ, A.tex.data i = whitePx)
    (hd : det2 (proj A.v0) (proj A.v1) (proj A.v2) ≠ 0)
    (h0 : inBuffer W H A.v0) (h1 : inBuffer W H A.v1) (h2 : inBuffer W H A.v2) :
    (∀ p : ℤ × ℤ,
      strictlyInside (proj A.v0) (proj A.v1) (proj A.v2) ⟨(p.1 : ℚ), (p.2 : ℚ)⟩ →
      (triangleOp (initRenderer W H) A).px (p.2 * (W : ℤ) + p.1) = whitePx) ∧
    (∀ p : ℤ × ℤ, 0 ≤ p.1 → p.1 < (W : ℤ) → 0 ≤ p.2 → p.2 < (H : ℤ) →
      ¬ inClosed (proj A.v0) (proj A.v1) (proj A.v2) ⟨(p.1 : ℚ), (p.2 : ℚ)⟩ →
      (triangleOp (initRenderer W H) A).px (p.2 * (W : ℤ) + p.1) = black ∧
      (triangleOp (initRenderer W H) A).zbuf (p.2 * (W : ℤ) + p.1) = some .ninf) := by
  have hWinit : (initRenderer W H).width = W := rfl
  constructor
  · -- strictly inside pixels become white
    intro p hins
    obtain ⟨u, v, w, hu, hv, hw, hsum, hx, hy⟩ := hins
    have hpos := (strictlyInside_iff_bc _ _ _ _ hd).mp ⟨u, v, w, hu, hv, hw, hsum, hx, hy⟩
    rw [← triBC_def] at hpos
    dsimp only at hx hy
    -- the pixel is in bounds
    have hpx0 : (0 : ℚ) ≤ (p.1 : ℚ) := by
      rw [hx]
      exact le_blend hu.le hv.le hw.le hsum h0.1 h1.1 h2.1
    have hpxW : (p.1 : ℚ) < (W : ℚ) := by
      rw [hx]
      exact blend_lt hu hv.le hw.le hsum h0.2.1 h1.2.1.le h2.2.1.le
    have hpy0 : (0 : ℚ) ≤ (p.2 : ℚ) := by
      rw [hy]
      exact le_blend hu.le hv.le hw.le hsum h0.2.2.1 h1.2.2.1 h2.2.2.1
    have hpyH : (p.2 : ℚ) < (H : ℚ) := by
      rw [hy]
      exact blend_lt hu hv.le hw.le hsum h0.2.2.2 h1.2.2.2.le h2.2.2.2.le
    have hp0 : 0 ≤ p.1 := by exact_mod_cast hpx0
    have hp1 : p.1 < (W : ℤ) := by exact_mod_cast hpxW
    have hp2 : 0 ≤ p.2 := by exact_mod_cast hpy0
    have hp3 : p.2 < (H : ℤ) := by exact_mod_cast hpyH
    have hidx := pxIndex_bounds hp0 hp1 hp2 hp3
    -- the pixel is scanned
    have hxmin : triXmin A ≤ p.1 := by
      unfold triXmin
      rw [jsTrunc_of_nonneg (min3_nonneg h0.1 h1.1 h2.1)]
      have hble : min3 A.v0.x A.v1.x A.v2.x ≤ (p.1 : ℚ) := by
        rw [hx]
        exact le_blend hu.le hv.le hw.le hsum (min3_le_a ..) (min3_le_b ..) (min3_le_c ..)
      have hfl : ((⌊min3 A.v0.x A.v1.x A.v2.x⌋ : ℤ) : ℚ) ≤ (p.1 : ℚ) :=
        le_trans (Int.floor_le _) hble
      exact_mod_cast hfl
    have hxmax : p.1 ≤ triXmax A := by
      unfold triXmax
      rw [jsTrunc_of_nonneg (le_trans h0.1 (le_max3_a ..))]
      refine Int.le_floor.mpr ?_
      rw [hx]
      exact blend_le hu.le hv.le hw.le hsum (le_max3_a ..) (le_max3_b ..) (le_max3_c ..)
    have hymin : triYmin A ≤ p.2 := by
      unfold triYmin
      rw [jsTrunc_of_nonneg (min3_nonneg h0.2.2.1 h1.2.2.1 h2.2.2.1)]
      have hble : min3 A.v0.y A.v1.y A.v2.y ≤ (p.2 : ℚ) := by
        rw [hy]
        exact le_blend hu.le hv.le hw.le hsum (min3_le_a ..) (min3_le_b ..) (min3_le_c ..)
      have hfl : ((⌊min3 A.v0.y A.v1.y A.v2.y⌋ : ℤ) : ℚ) ≤ (p.2 : ℚ) :=
        le_trans (Int.floor_le _) hble
      exact_mod_cast hfl
    have hymax : p.2 ≤ triYmax A := by
      unfold triYmax
      rw [jsTrunc_of_nonneg (le_trans h0.2.2.1 (le_max3_a ..))]
      refine Int.le_floor.mpr ?_
      rw [hy]
      exact blend_le hu.le hv.le hw.le hsum (le_max3_a ..) (le_max3_b ..) (le_max3_c ..)
    have hmem : p ∈ triPoints A := mem_triPoints.mpr ⟨hxmin, hxmax, hymin, hymax⟩
    -- split the scan around p
    obtain ⟨l1, l2, hl⟩ := List.append_of_mem hmem
    have hnodup := triPoints_nodup A
    rw [hl] at hnodup
    obtain ⟨hn1, hn2, hdisj⟩ := List.nodup_append.mp hnodup
    have hpl1 : p ∉ l1 := fun hc => hdisj hc (List.mem_cons_self ..)
    have hpl2 : p ∉ l2 := (List.nodup_cons.mp hn2).1
    have hsub : ∀ q, q ∈ l1 ∨ q ∈ l2 → q ∈ triPoints A := by
      intro q hq
      rw [hl]
      rcases hq with h | h
      · exact List.mem_append_left _ h
      · exact List.mem_append_right _ (List.mem_cons_of_mem _ h)
    unfold triangleOp
    rw [hl, List.foldl_append, List.foldl_cons]
    have hfr1 := foldl_triStep_frame A l1 (initRenderer W H) (p.2 * (W : ℤ) + p.1) (by
      intro q hq hqi
      have hqb := triPoints_inBounds h0 h1 h2 q (hsub q (Or.inl hq))
      rw [hWinit] at hqi
      have hqp := pxIndex_inj ⟨hqb.1, hqb.2.1⟩ ⟨hp0, hp1⟩ ⟨hqb.2.2.1, hqb.2.2.2⟩
        ⟨hp2, hp3⟩ hqi
      exact absurd ((Prod.ext hqp.1 hqp.2) ▸ hq) hpl1)
    have hW1 : (l1.foldl (triStep A) (initRenderer W H)).width = W := by
      rw [foldl_triStep_width, hWinit]
    have hH1 : (l1.foldl (triStep A) (initRenderer W H)).height = H := by
      rw [foldl_triStep_height]
      rfl
    have hz1 : (l1.foldl (triStep A) (initRenderer W H)).zbuf (p.2 * (W : ℤ) + p.1) =
        some .ninf := by
      rw [hfr1.2]
      exact initRenderer_zbuf_in W H _ ⟨hidx.1, hidx.2⟩
    have hns : ¬ triSkip A (l1.foldl (triStep A) (initRenderer W H)) p := by
      unfold triSkip
      push_neg
      refine ⟨hpos.1.le, hpos.2.1.le, hpos.2.2.le, ?_⟩
      rw [hW1, hz1]
      simp [jsLe]
    have hstep_px : (triStep A (l1.foldl (triStep A) (initRenderer W H)) p).px
        (p.2 * (W : ℤ) + p.1) = whitePx := by
      rw [triStep_of_not_skip _ _ _ hns]
      unfold pixelOp
      have hidx2 : pxIndex
          (zbufSet (l1.foldl (triStep A) (initRenderer W H))
            (p.2 * ((l1.foldl (triStep A) (initRenderer W H)).width : ℤ) + p.1)
            (triZ A (triBC A p.1 p.2)))
          (jsTrunc (p.1 : ℚ)) (jsTrunc (p.2 : ℚ)) = p.2 * (W : ℤ) + p.1 := by
        unfold pxIndex
        rw [jsTrunc_intCast, jsTrunc_intCast, zbufSet_width, hW1]
      rw [hidx2, hW1]
      rw [writePx_px_self _ _ _ (by
        rw [zbufSet_width, zbufSet_height, hW1, hH1]
        exact ⟨hidx.1, hidx.2⟩)]
      rw [getPixel, htex, hI, clamp_white]
    have hfr2 := foldl_triStep_frame A l2
      (triStep A (l1.foldl (triStep A) (initRenderer W H)) p) (p.2 * (W : ℤ) + p.1) (by
        intro q hq hqi
        have hqb := triPoints_inBounds h0 h1 h2 q (hsub q (Or.inr hq))
        rw [triStep_width, hW1] at hqi
        have hqp := pxIndex_inj ⟨hqb.1, hqb.2.1⟩ ⟨hp0, hp1⟩ ⟨hqb.2.2.1, hqb.2.2.2⟩
          ⟨hp2, hp3⟩ hqi
        exact absurd ((Prod.ext hqp.1 hqp.2) ▸ hq) hpl2)
    rw [hfr2.1, hstep_px]
  · -- strictly outside in-bounds pixels are untouched
    intro p hp0 hp1 hp2 hp3 hout
    have hbcneg : (triBC A p.1 p.2).1 < 0 ∨ (triBC A p.1 p.2).2.1 < 0 ∨
        (triBC A p.1 p.2).2.2 < 0 := by
      rw [triBC_def]
      exact (notInClosed_iff_bc _ _ _ _ hd).mp hout
    have hfr := foldl_triStep_frame A (triPoints A) (initRenderer W H)
      (p.2 * (W : ℤ) + p.1) (by
        intro q hq hqi
        have hqb := triPoints_inBounds h0 h1 h2 q hq
        rw [hWinit] at hqi
        have hqp := pxIndex_inj ⟨hqb.1, hqb.2.1⟩ ⟨hp0, hp1⟩ ⟨hqb.2.2.1, hqb.2.2.2⟩
          ⟨hp2, hp3⟩ hqi
        rw [show q = p from Prod.ext hqp.1 hqp.2]
        exact hbcneg)
    unfold triangleOp
    constructor
    · rw [hfr.1]
      rfl
    · rw [hfr.2]
      exact initRenderer_zbuf_in W H _ (pxIndex_bounds hp0 hp1 hp2 hp3)

/-- Claim C1 witness: the right triangle `(0,0),(3,0),(0,3)` on a fresh
4×4 renderer: the strictly interior pixel `(1,1)` (flat index 5) turns
white, and the strictly exterior pixel `(3,3)` (flat index 15) keeps its
black bytes and `-Infinity` depth. -/
theorem claim_C1_witness :
    (triangleOp (initRenderer 4 4) exTriC1).px 5 = whitePx ∧
    ((triangleOp (initRenderer 4 4) exTriC1).px 15 = black ∧
      (triangleOp (initRenderer 4 4) exTriC1).zbuf 15 = some .ninf) := by
  have h := claim_C1 4 4 exTriC1 (by norm_num [exTriC1]) (fun i => rfl)
    (by norm_num [det2, proj, exTriC1]) (by norm_num [inBuffer, exTriC1])
    (by norm_num [inBuffer, exTriC1]) (by norm_num [inBuffer, exTriC1])
  constructor
  · have h5 := h.1 (1, 1) ⟨1/3, 1/3, 1/3, by norm_num, by norm_num, by norm_num,
      by norm_num, by norm_num [proj, exTriC1], by norm_num [proj, exTriC1]⟩
    norm_num at h5
    exact h5
  · have h15 := h.2 (3, 3) (by norm_num) (by norm_num) (by norm_num) (by norm_num) (by
      rintro ⟨u, v, w, hu, hv, hw, hsum, hx, hy⟩
      norm_num [proj, exTriC1] at hx hy
      linarith)
    norm_num at h15
    exact h15

end TinyR




